import Mathlib

/-!
Verification of the `mertics` hierarchical metrics registry (src/mertics.cc).

Shallow embedding: the tree of nodes is modelled as an inductive snapshot
`NTree`.  A node carries an optional rendered field value (`none` for the
structural base `Node`/`Root`, `some s` for a `Storage`/`AtomicStorage`
whose `Field` renders as the string `s`; `Field<T>::visit` writes
`output << content`, so `s` is exactly the text the stream insertion
produces) and a list of weak child references.  A child slot `none`
models a `std::weak_ptr` whose referent has been destroyed (lock fails);
`some t` models a live child with subtree `t`.

The `Visitor` is modelled as explicit state (current depth plus the bytes
written so far to its output stream), and `Node::visit` /
`Storage::visit` / `AtomicStorage::visit` as a state-passing traversal.
All definitions are computable so concrete scenarios evaluate.
-/

namespace Mertics

/-- Bytes written by `Visitor::header` (line 18): the header line and the
`std::endl` newline. -/
def headerStr : String := " -!- R E P O R T -!-\n"

/-- Bytes written by `Visitor::tail` (lines 20-24): the footer line followed
by three `std::endl`, i.e. the footer newline plus two blank lines. -/
def tailStr : String := " -@- _ _ _ _ _ _ -@-\n\n\n"

/-- The indentation emitted by the loop in `Visitor::prefix` (lines 26-27):
`"  "` once per counter value in `[1, depth)`, i.e. `depth - 1` copies
(zero when `depth ≤ 1`). -/
def indentOf (depth : Nat) : String := String.join (List.replicate (depth - 1) "  ")

/-- The leaf-marker literal in `Visitor::prefix` (line 28): space, dash, space. -/
def markerStr : String := " - "

/-- Bytes written by `Visitor::suffix` (line 31). -/
def suffixStr : String := "\n"

/-- Visitor state: the `depth` counter (line 33) and the bytes written so far
to the `output` stream (line 34). -/
structure Visitor where
  depth : Nat
  out : String
deriving Repr, DecidableEq

/-- `Visitor::prefix` (lines 25-29): emit `depth - 1` indent units then the
leaf marker. -/
def Visitor.mark (v : Visitor) : Visitor :=
  { v with out := v.out ++ indentOf v.depth ++ markerStr }

/-- `Visitor::suffix` (lines 30-32): emit the line terminator. -/
def Visitor.lineEnd (v : Visitor) : Visitor :=
  { v with out := v.out ++ suffixStr }

/-- `Field<CONTENT>::visit` (lines 120-122): write the rendered content to the
visitor's output stream. `s` is the text `output << content` produces. -/
def Visitor.renderField (s : String) (v : Visitor) : Visitor :=
  { v with out := v.out ++ s }

/-- Snapshot of a node at traversal time.  `field = none`: a structural node
(`Node` base / `Root`) that renders nothing; `field = some s`: a
`Storage`/`AtomicStorage` whose `Field` renders as `s`.  Each child slot is a
weak reference: `none` when the referent was destroyed, `some t` when live. -/
inductive NTree : Type where
  | node (field : Option String) (children : List (Option NTree))

/-- The node's child list (`Node::children_`, line 56). -/
def NTree.kids : NTree → List (Option NTree)
  | .node _ cs => cs

/-- The node's rendered field value, when it is a storage node. -/
def NTree.fieldVal : NTree → Option String
  | .node f _ => f

mutual
/-- Combined virtual `visit(visitor, children)` dispatch.
For a storage node (`field = some s`), `Storage::visit` /
`AtomicStorage::visit` (lines 64-69, 81-89): `visitor.prefix()`, render the
field, `visitor.suffix()`, then delegate to `Node::visit`.  For `field =
none`, the base `Node::visit` (lines 39-45) renders nothing.  The base
traversal increments `visitor.depth`, visits each child reference in list
order — a reference whose `lock()` fails (`none`) is skipped — and
decrements `visitor.depth` back.  (The mutex in `AtomicStorage` only
serializes the single-threaded semantics modelled here, so it is a no-op.) -/
def visitNode : NTree → Visitor → Visitor
  | .node field cs, v =>
    let v1 := match field with
      | some s => Visitor.lineEnd (Visitor.renderField s (Visitor.mark v))
      | none => v
    let v2 := visitKids cs { v1 with depth := v1.depth + 1 }
    { v2 with depth := v2.depth - 1 }

/-- The range-for loop of `Node::visit` (lines 41-43): for each child
reference, if it locks to a live node, recursively visit it; otherwise
skip it. -/
def visitKids : List (Option NTree) → Visitor → Visitor
  | [], v => v
  | none :: rest, v => visitKids rest v
  | some t :: rest, v => visitKids rest (visitNode t v)
end

/-- `Root::visit` (lines 104-107) on a given output stream prefix: construct
a `Visitor` (whose constructor writes the header, line 16), run the base
`Node::visit` on the Root — a structural node whose children are `cs` — and
let the visitor's destructor write the tail (line 15).  Returns the whole
stream contents. -/
def rootVisitOn (cs : List (Option NTree)) (stream : String) : String :=
  let v0 : Visitor := { depth := 0, out := stream ++ headerStr }
  let v1 := visitNode (.node none cs) v0
  v1.out ++ tailStr

/-- `Root::visit` starting from an empty stream: the bytes of one report. -/
def rootVisit (cs : List (Option NTree)) : String := rootVisitOn cs ""

/-- `AtomicStorage::commit` / `Storage::commit` (lines 70-72, 90-93): replace
the stored field wholesale; children are untouched. -/
def NTree.commit (t : NTree) (v : String) : NTree :=
  .node (some v) t.kids

mutual
/-- Pure characterization of the bytes a node's `visit` appends when entered
at visitor depth `d`: its own line (for a storage node) followed by the
children's bytes at depth `d + 1`. -/
def bodyNode : NTree → Nat → String
  | .node f cs, d =>
    (match f with
      | some s => indentOf d ++ markerStr ++ s ++ suffixStr
      | none => "") ++ bodyKids cs (d + 1)

/-- Pure characterization of the bytes a child list contributes at depth `d`:
dead references contribute nothing, live ones contribute their subtree. -/
def bodyKids : List (Option NTree) → Nat → String
  | [], _ => ""
  | none :: rest, d => bodyKids rest d
  | some t :: rest, d => bodyNode t d ++ bodyKids rest d
end

mutual
/-- The sequence of (depth, rendered value) pairs of the storage nodes a
traversal entered at depth `d` renders, in emission order. -/
def collect : NTree → Nat → List (Nat × String)
  | .node f cs, d =>
    (match f with
      | some s => [(d, s)]
      | none => []) ++ collectKids cs (d + 1)

/-- The (depth, value) pairs contributed by a child list visited at depth
`d`, dead references skipped. -/
def collectKids : List (Option NTree) → Nat → List (Nat × String)
  | [], _ => []
  | none :: rest, d => collectKids rest d
  | some t :: rest, d => collect t d ++ collectKids rest d
end

/-- The bytes of the single report line for a (depth, value) pair. -/
def lineOf (p : Nat × String) : String :=
  indentOf p.1 ++ markerStr ++ p.2 ++ suffixStr

/-- The full report `Root::visit` writes for a Root with children `cs`. -/
def reportOf (cs : List (Option NTree)) : String :=
  headerStr ++ bodyKids cs 1 ++ tailStr

/-- Concatenation of the report lines for a list of (depth, value) pairs. -/
def linesOf (ps : List (Nat × String)) : String :=
  ps.foldr (fun p acc => lineOf p ++ acc) ""

/-- The (depth, value) pairs contributed by one weak child slot. -/
def optCollect : Option NTree → Nat → List (Nat × String)
  | none, _ => []
  | some t, d => collect t d

/-- The node reached from `t` by following the given child indices, when every
hop resolves to a live child. -/
def subtreeAt : NTree → List Nat → Option NTree
  | t, [] => some t
  | .node _ cs, i :: p =>
    match cs[i]? with
    | some (some u) => subtreeAt u p
    | _ => none

/-- Snapshot surgery: apply `g` to the node reached by the path, leaving the
rest of the tree unchanged (identity when the path does not resolve).  Used
to model a mutation between two traversals: `g = commit` for a recommit,
`g` replacing a child slot by `none` for the destruction of that child's
last strong owner. -/
def modifyAt : NTree → List Nat → (NTree → NTree) → NTree
  | t, [], g => g t
  | .node f cs, i :: p, g =>
    match cs[i]? with
    | some (some u) => .node f (cs.set i (some (modifyAt u p g)))
    | _ => .node f cs

mutual
/-- Spec-side rendering order, written from the spec's words for comparison
with the traversal: "renders every node reachable from Root through live
weak references, in child-append order, and renders no node reachable only
through a reference whose owner has been destroyed" — a node's own value
first, then each child in append order, dead references contributing
nothing. -/
def specLiveValues : NTree → List String
  | .node f cs =>
    (match f with
      | some s => [s]
      | none => []) ++ specLiveKids cs

/-- Spec-side rendering order of a child list: live children in append
order, destroyed children omitted. -/
def specLiveKids : List (Option NTree) → List String
  | [] => []
  | none :: rest => specLiveKids rest
  | some t :: rest => specLiveValues t ++ specLiveKids rest
end

/-- The C assert macro: with `ndebug = true` (NDEBUG defined) it expands to
`((void)0)` and succeeds silently; otherwise it aborts (`none`) when the
condition is false. -/
def assertC (ndebug : Bool) (cond : Bool) : Option Unit :=
  if ndebug then some () else if cond then some () else none

/-- `Node::trim` (lines 49-51): `assert(!"unimplemented")`.  The string
literal is a non-null pointer, so the asserted condition is `false`. -/
def NTree.trim (ndebug : Bool) : Option Unit :=
  assertC ndebug false

mutual
/-- The state-passing traversal appends exactly `bodyNode` and restores the
visitor's depth. -/
theorem visitNode_spec : ∀ (t : NTree) (v : Visitor),
    visitNode t v = ⟨v.depth, v.out ++ bodyNode t v.depth⟩
  | .node f cs, v => by
    cases f with
    | none =>
      simp only [visitNode, bodyNode]
      rw [visitKids_spec]
      simp [String.empty_append, String.append_assoc]
    | some s =>
      simp only [visitNode, bodyNode, Visitor.mark, Visitor.lineEnd, Visitor.renderField]
      rw [visitKids_spec]
      simp [String.append_assoc]

/-- The child-list traversal appends exactly `bodyKids` and preserves the
visitor's depth. -/
theorem visitKids_spec : ∀ (cs : List (Option NTree)) (v : Visitor),
    visitKids cs v = ⟨v.depth, v.out ++ bodyKids cs v.depth⟩
  | [], v => by simp [visitKids, bodyKids, String.append_empty]
  | none :: rest, v => by
    simp only [visitKids, bodyKids]
    exact visitKids_spec rest v
  | some t :: rest, v => by
    simp only [visitKids, bodyKids]
    rw [visitNode_spec, visitKids_spec]
    simp [String.append_assoc]
end

/-- `Root::visit` writes the header, the body of the children at depth 1,
and the tail. -/
theorem rootVisitOn_eq (cs : List (Option NTree)) (stream : String) :
    rootVisitOn cs stream = stream ++ reportOf cs := by
  simp only [rootVisitOn, reportOf]
  rw [visitNode_spec]
  simp [bodyNode, bodyKids, String.empty_append, String.append_assoc]

/-- One report from an empty stream is exactly `reportOf`. -/
theorem rootVisit_eq (cs : List (Option NTree)) : rootVisit cs = reportOf cs := by
  rw [rootVisit, rootVisitOn_eq, String.empty_append]

theorem linesOf_nil : linesOf [] = "" := rfl

theorem linesOf_cons (p : Nat × String) (ps : List (Nat × String)) :
    linesOf (p :: ps) = lineOf p ++ linesOf ps := rfl

theorem linesOf_append (a b : List (Nat × String)) :
    linesOf (a ++ b) = linesOf a ++ linesOf b := by
  induction a with
  | nil => rw [List.nil_append, linesOf_nil, String.empty_append]
  | cons p rest ih =>
    rw [List.cons_append, linesOf_cons, linesOf_cons, ih, String.append_assoc]

mutual
/-- The body a node emits is exactly the concatenation of the report lines of
its `collect` sequence. -/
theorem bodyNode_eq_lines : ∀ (t : NTree) (d : Nat), bodyNode t d = linesOf (collect t d)
  | .node f cs, d => by
    cases f with
    | none =>
      simp only [bodyNode, collect]
      rw [bodyKids_eq_lines]
      simp [String.empty_append]
    | some s =>
      simp only [bodyNode, collect]
      rw [bodyKids_eq_lines]
      simp only [List.singleton_append, linesOf_cons, lineOf]

/-- The body a child list emits is the concatenation of the report lines of
its `collectKids` sequence. -/
theorem bodyKids_eq_lines : ∀ (cs : List (Option NTree)) (d : Nat),
    bodyKids cs d = linesOf (collectKids cs d)
  | [], _ => rfl
  | none :: rest, d => by
    simp only [bodyKids, collectKids]
    exact bodyKids_eq_lines rest d
  | some t :: rest, d => by
    simp only [bodyKids, collectKids]
    rw [bodyNode_eq_lines, bodyKids_eq_lines, linesOf_append]
end

/-- Replacing the live child in slot `i` by `c'` splits `collectKids` around
that child's contribution and substitutes the new slot's contribution. -/
theorem collectKids_set (cs : List (Option NTree)) (i : Nat) (w : NTree)
    (c' : Option NTree) (d : Nat) (h : cs[i]? = some (some w)) :
    ∃ a b, collectKids cs d = a ++ collect w d ++ b ∧
      collectKids (cs.set i c') d = a ++ optCollect c' d ++ b := by
  induction cs generalizing i with
  | nil => simp at h
  | cons c rest ih =>
    cases i with
    | zero =>
      simp only [List.getElem?_cons_zero, Option.some.injEq] at h
      subst h
      refine ⟨[], collectKids rest d, by simp [collectKids], ?_⟩
      cases c' <;> simp [collectKids, optCollect, List.set]
    | succ i =>
      simp only [List.getElem?_cons_succ] at h
      obtain ⟨a, b, h1, h2⟩ := ih i h
      cases c with
      | none =>
        exact ⟨a, b, by simpa [collectKids, List.set] using h1,
          by simpa [collectKids, List.set] using h2⟩
      | some u =>
        exact ⟨collect u d ++ a, b, by simp [collectKids, List.set, h1, List.append_assoc],
          by simp [collectKids, List.set, h2, List.append_assoc]⟩

/-- Segment lemma: if the path `p` resolves from `t` to the node `u`, then
`u` is visited at depth `d + p.length`, its contribution sits contiguously in
`collect t d`, and surgery `g` at `p` replaces exactly that segment by the
contribution of `g u`. -/
theorem modifyAt_collect (p : List Nat) :
    ∀ (t u : NTree) (g : NTree → NTree) (d : Nat),
    subtreeAt t p = some u →
    ∃ pre post, collect t d = pre ++ collect u (d + p.length) ++ post ∧
      collect (modifyAt t p g) d = pre ++ collect (g u) (d + p.length) ++ post := by
  induction p with
  | nil =>
    intro t u g d h
    simp only [subtreeAt, Option.some.injEq] at h
    subst h
    exact ⟨[], [], by simp, by simp [modifyAt]⟩
  | cons i p ih =>
    intro t u g d h
    rcases t with ⟨f, cs⟩
    simp only [subtreeAt] at h
    cases hw : cs[i]? with
    | none => rw [hw] at h; simp at h
    | some c =>
      cases c with
      | none => rw [hw] at h; simp at h
      | some w =>
        rw [hw] at h
        simp only at h
        obtain ⟨a, b, ha, hb⟩ := collectKids_set cs i w (some (modifyAt w p g)) (d + 1) hw
        obtain ⟨pre, post, h1, h2⟩ := ih w u g (d + 1) h
        have hdep : d + (i :: p).length = (d + 1) + p.length := by
          simp [List.length_cons]; omega
        cases f with
        | none =>
          refine ⟨a ++ pre, post ++ b, ?_, ?_⟩
          · simp only [collect, List.nil_append, hdep]
            rw [ha, h1]
            simp [List.append_assoc]
          · simp only [modifyAt, hw, collect, List.nil_append, hdep]
            rw [hb]
            simp only [optCollect]
            rw [h2]
            simp [List.append_assoc]
        | some s =>
          refine ⟨(d, s) :: (a ++ pre), post ++ b, ?_, ?_⟩
          · simp only [collect, List.singleton_append, hdep]
            rw [ha, h1]
            simp [List.append_assoc]
          · simp only [modifyAt, hw, collect, List.singleton_append, hdep]
            rw [hb]
            simp only [optCollect]
            rw [h2]
            simp [List.append_assoc]

/-- The report is the header, the lines of the root wrapper's collect
sequence, and the tail. -/
theorem rootVisit_lines (cs : List (Option NTree)) :
    rootVisit cs = headerStr ++ linesOf (collect (.node none cs) 0) ++ tailStr := by
  rw [rootVisit_eq, reportOf, bodyKids_eq_lines]
  simp only [collect, List.nil_append]

/-- For a structural node (field `none`), the report over its children is
the lines of its own collect sequence. -/
theorem rootVisit_kids (t : NTree) (hf : t.fieldVal = none) :
    rootVisit t.kids = headerStr ++ linesOf (collect t 0) ++ tailStr := by
  rcases t with ⟨f, cs⟩
  simp only [NTree.fieldVal] at hf
  subst hf
  simpa only [NTree.kids] using rootVisit_lines cs

/-- Path surgery below the root never touches the root's own field. -/
theorem modifyAt_keeps_root_field (f : Option String) (cs : List (Option NTree))
    (i : Nat) (p : List Nat) (g : NTree → NTree) :
    (modifyAt (.node f cs) (i :: p) g).fieldVal = f := by
  simp only [modifyAt]
  cases hw : cs[i]? with
  | none => rfl
  | some c => cases c <;> rfl

mutual
/-- The values of the traversal's collect sequence are exactly the
spec-side live preorder values. -/
theorem collect_snd : ∀ (t : NTree) (d : Nat),
    (collect t d).map Prod.snd = specLiveValues t
  | .node f cs, d => by
    cases f with
    | none =>
      simp only [collect, specLiveValues, List.nil_append]
      exact collectKids_snd cs (d + 1)
    | some s =>
      simp only [collect, specLiveValues, List.singleton_append, List.map_cons]
      rw [collectKids_snd]

/-- The values contributed by a child list are the spec-side live values of
that list. -/
theorem collectKids_snd : ∀ (cs : List (Option NTree)) (d : Nat),
    (collectKids cs d).map Prod.snd = specLiveKids cs
  | [], _ => rfl
  | none :: rest, d => by
    simp only [collectKids, specLiveKids]
    exact collectKids_snd rest d
  | some t :: rest, d => by
    simp only [collectKids, specLiveKids, List.map_append]
    rw [collect_snd, collectKids_snd]
end

/-- A child list of expired references contributes no bytes. -/
theorem bodyKids_all_dead (cs : List (Option NTree)) (d : Nat)
    (h : ∀ c ∈ cs, c = none) : bodyKids cs d = "" := by
  induction cs with
  | nil => rfl
  | cons c rest ih =>
    have hc : c = none := h c (List.mem_cons_self c rest)
    subst hc
    exact ih (fun c hc => h c (List.mem_cons_of_mem _ hc))

/-- C1 (counterexample): on Scenario A — a Root with one
`AtomicStorage<string>` child committed to "hello" and no grandchildren —
the report is not header, a body line ` -  hello` (two spaces after the
dash), and footer: the code's `Visitor::prefix` emits the marker ` - ` and
`Field::visit` emits the value directly after it, leaving a single space
between the dash and the value. -/
theorem scenarioA_body_not_double_spaced :
    rootVisit [some (.node (some "hello") [])] ≠
      headerStr ++ " -  hello\n" ++ tailStr := by decide

/-- C1 (amended): on Scenario A the report body is exactly one line
` - hello` — the leaf marker ` - ` immediately followed by the rendered
value — between the header and footer framing. -/
theorem scenarioA_report :
    rootVisit [some (.node (some "hello") [])] =
      headerStr ++ " - hello\n" ++ tailStr := by decide

/-- C2 (counterexample): with NDEBUG defined the assert in `Node::trim`
expands to `((void)0)`, so the call returns normally and silently instead
of failing fatally — refuting "in every build configuration". -/
theorem trim_silent_under_ndebug : NTree.trim true = some () := rfl

/-- C2 (amended): in builds with assertions enabled (NDEBUG not defined)
every call to `Node::trim` takes the failing-assertion branch and aborts;
with NDEBUG defined it silently does nothing. -/
theorem trim_aborts_when_asserts_on :
    NTree.trim false = none ∧ NTree.trim true = some () := ⟨rfl, rfl⟩

/-- C3: if the child in slot `i` of the node at path `p` is live in one
snapshot and its sole strong owner is then released (the slot no longer
resolves), the next `Root::visit` emits no line for that child or its
subtree, raises no error (the traversal is total), and renders everything
else unchanged: the new report is the old one with exactly that child's
segment removed. -/
theorem dead_child_skipped (cs : List (Option NTree)) (p : List Nat)
    (f : Option String) (cs' : List (Option NTree)) (i : Nat) (w : NTree)
    (hp : subtreeAt (.node none cs) p = some (.node f cs'))
    (hi : cs'[i]? = some (some w)) :
    ∃ pre post,
      rootVisit cs = headerStr ++ linesOf pre
        ++ linesOf (collect w (p.length + 1)) ++ linesOf post ++ tailStr ∧
      rootVisit ((modifyAt (.node none cs) p
          (fun u => .node u.fieldVal (u.kids.set i none))).kids)
        = headerStr ++ linesOf pre ++ linesOf post ++ tailStr := by
  obtain ⟨pre0, post0, h1, h2⟩ :=
    modifyAt_collect p (.node none cs) (.node f cs')
      (fun u => .node u.fieldVal (u.kids.set i none)) 0 hp
  obtain ⟨a, b, ha, hb⟩ := collectKids_set cs' i w none (p.length + 1) hi
  have hf : (modifyAt (.node none cs) p
      (fun u => .node u.fieldVal (u.kids.set i none))).fieldVal = none := by
    cases p with
    | nil =>
      simp only [subtreeAt, Option.some.injEq] at hp
      simp [modifyAt, NTree.fieldVal]
    | cons j q => exact modifyAt_keeps_root_field none cs j q _
  cases f with
  | none =>
    refine ⟨pre0 ++ a, b ++ post0, ?_, ?_⟩
    · rw [rootVisit_lines cs, h1]
      simp only [collect, List.nil_append, Nat.zero_add] at *
      rw [ha]
      simp [linesOf_append, String.append_assoc, List.append_assoc]
    · rw [rootVisit_kids _ hf, h2]
      simp only [NTree.fieldVal, NTree.kids, collect, List.nil_append, Nat.zero_add] at *
      rw [hb]
      simp [linesOf_append, optCollect, String.append_assoc, List.append_assoc]
  | some s =>
    refine ⟨pre0 ++ (p.length, s) :: a, b ++ post0, ?_, ?_⟩
    · rw [rootVisit_lines cs, h1]
      simp only [collect, List.singleton_append, Nat.zero_add] at *
      rw [ha]
      simp [linesOf_append, linesOf_cons, String.append_assoc, List.append_assoc]
    · rw [rootVisit_kids _ hf, h2]
      simp only [NTree.fieldVal, NTree.kids, collect, List.singleton_append, Nat.zero_add] at *
      rw [hb]
      simp [linesOf_append, linesOf_cons, optCollect, String.append_assoc, List.append_assoc]

/-- C3 (witness): releasing the owner of the Root's only child turns the
one-line "hello" report into the empty report. -/
theorem dead_child_skipped_instance : ∃ pre post,
    rootVisit [some (.node (some "hello") [])] = headerStr ++ linesOf pre
      ++ linesOf (collect (.node (some "hello") []) 1) ++ linesOf post ++ tailStr ∧
    rootVisit ((modifyAt (.node none [some (.node (some "hello") [])]) []
        (fun u => .node u.fieldVal (u.kids.set 0 none))).kids)
      = headerStr ++ linesOf pre ++ linesOf post ++ tailStr :=
  dead_child_skipped [some (.node (some "hello") [])] [] none
    [some (.node (some "hello") [])] 0 (.node (some "hello") []) rfl rfl

/-- C4: a storage node reached from the Root by the child-index path `p`
(so `p.length` edges from the Root, direct children at depth 1) is recorded
by the traversal at depth exactly `p.length`, and its line in the report is
prefixed by exactly `p.length - 1` repetitions of the two-space indent unit
before the leaf marker. -/
theorem depth_equals_edges (cs : List (Option NTree)) (p : List Nat)
    (s : String) (cs' : List (Option NTree))
    (h : subtreeAt (.node none cs) p = some (.node (some s) cs')) :
    ∃ pre post,
      collect (.node none cs) 0 = pre ++ (p.length, s) :: post ∧
      rootVisit cs = headerStr ++ linesOf pre
        ++ (String.join (List.replicate (p.length - 1) "  ") ++ " - " ++ s ++ "\n")
        ++ linesOf post ++ tailStr := by
  obtain ⟨pre0, post0, h1, _⟩ :=
    modifyAt_collect p (.node none cs) (.node (some s) cs') id 0 h
  refine ⟨pre0, collectKids cs' (p.length + 1) ++ post0, ?_, ?_⟩
  · rw [h1]
    simp [collect, List.append_assoc]
  · rw [rootVisit_lines cs, h1]
    simp only [collect, List.singleton_append, Nat.zero_add]
    simp [linesOf_append, linesOf_cons, lineOf, indentOf, markerStr, suffixStr,
      String.append_assoc]

/-- C4 (witness): in Scenario B the node holding "2" sits two edges below
the Root (path [0, 0]), is recorded at depth 2, and its line carries one
two-space indent unit. -/
theorem depth_equals_edges_instance : ∃ pre post,
    collect (.node none [some (.node (some "hello")
        [some (.node (some "2") [])])]) 0 = pre ++ (2, "2") :: post ∧
    rootVisit [some (.node (some "hello") [some (.node (some "2") [])])]
      = headerStr ++ linesOf pre
        ++ (String.join (List.replicate 1 "  ") ++ " - " ++ "2" ++ "\n")
        ++ linesOf post ++ tailStr :=
  depth_equals_edges [some (.node (some "hello") [some (.node (some "2") [])])]
    [0, 0] "2" [] rfl

/-- C5: `visit` on the Root renders, in order, exactly the spec's live
preorder sequence — every node reachable through live weak references, each
parent's children in append order, and no node whose reference no longer
resolves — and the report is the corresponding line sequence between header
and tail. -/
theorem renders_live_in_append_order (cs : List (Option NTree)) :
    (collect (.node none cs) 0).map Prod.snd = specLiveKids cs ∧
    rootVisit cs = headerStr ++ linesOf (collect (.node none cs) 0) ++ tailStr := by
  constructor
  · have := collect_snd (.node none cs) 0
    simpa [specLiveValues] using this
  · exact rootVisit_lines cs

/-- C6: committing `v` to a storage node and then visiting it renders `v`:
the visit appends the node's line — indentation, marker, exactly the
committed value, newline — followed by its children's bytes, and no stale
value appears. -/
theorem commit_then_visit_renders (t : NTree) (v : String) (vis : Visitor) :
    visitNode (t.commit v) vis =
      ⟨vis.depth, vis.out ++ (indentOf vis.depth ++ markerStr ++ v ++ suffixStr)
        ++ bodyKids t.kids (vis.depth + 1)⟩ := by
  rw [visitNode_spec]
  simp [NTree.commit, bodyNode, String.append_assoc]

/-- C7: recommitting the storage node at path `p` from `s` to `v` changes
only that node's line: the report after the commit is the report before it
with `lineOf (p.length, s)` replaced by `lineOf (p.length, v)`, every other
line unchanged. -/
theorem commit_changes_one_line (cs : List (Option NTree)) (p : List Nat)
    (s v : String) (cs' : List (Option NTree))
    (h : subtreeAt (.node none cs) p = some (.node (some s) cs')) :
    ∃ pre post,
      rootVisit cs = headerStr ++ linesOf pre ++ lineOf (p.length, s)
        ++ linesOf post ++ tailStr ∧
      rootVisit ((modifyAt (.node none cs) p (fun u => u.commit v)).kids)
        = headerStr ++ linesOf pre ++ lineOf (p.length, v)
          ++ linesOf post ++ tailStr := by
  obtain ⟨pre0, post0, h1, h2⟩ :=
    modifyAt_collect p (.node none cs) (.node (some s) cs') (fun u => u.commit v) 0 h
  have hne : p ≠ [] := by
    intro e
    subst e
    simp [subtreeAt] at h
  have hf : (modifyAt (.node none cs) p (fun u => u.commit v)).fieldVal = none := by
    cases p with
    | nil => exact absurd rfl hne
    | cons j q => exact modifyAt_keeps_root_field none cs j q _
  refine ⟨pre0, collectKids cs' (p.length + 1) ++ post0, ?_, ?_⟩
  · rw [rootVisit_lines cs, h1]
    simp only [collect, List.singleton_append, Nat.zero_add]
    simp [linesOf_append, linesOf_cons, String.append_assoc]
  · rw [rootVisit_kids _ hf, h2]
    simp only [NTree.commit, NTree.kids, collect, List.singleton_append, Nat.zero_add]
    simp [linesOf_append, linesOf_cons, String.append_assoc]

/-- C7 (witness): Scenario C — recommitting the depth-1 node from "hello"
to "bye" changes the first body line and leaves the child's "2" line
untouched. -/
theorem commit_changes_one_line_instance : ∃ pre post,
    rootVisit [some (.node (some "hello") [some (.node (some "2") [])])]
      = headerStr ++ linesOf pre ++ lineOf (1, "hello") ++ linesOf post ++ tailStr ∧
    rootVisit ((modifyAt
        (.node none [some (.node (some "hello") [some (.node (some "2") [])])])
        [0] (fun u => u.commit "bye")).kids)
      = headerStr ++ linesOf pre ++ lineOf (1, "bye") ++ linesOf post ++ tailStr :=
  commit_changes_one_line
    [some (.node (some "hello") [some (.node (some "2") [])])]
    [0] "hello" "bye" [some (.node (some "2") [])] rfl

/-- C8: `Root::visit` is deterministic and read-only on the tree: two
consecutive visits of the same tree with nothing mutated in between append
two byte-identical copies of the same report to the output stream (the
traversal itself never modifies the tree — it is a pure function of the
snapshot). -/
theorem visit_idempotent (cs : List (Option NTree)) (stream : String) :
    rootVisitOn cs (rootVisitOn cs stream) = stream ++ reportOf cs ++ reportOf cs := by
  rw [rootVisitOn_eq, rootVisitOn_eq, String.append_assoc]

/-- C9: every `Node::visit` call restores the visitor's depth — it is
incremented by one for the duration of the children traversal and
decremented back, so after the call the depth equals its starting value,
for every node, child list, and starting visitor state. -/
theorem visit_restores_depth (f : Option String) (cs : List (Option NTree))
    (vis : Visitor) : (visitNode (.node f cs) vis).depth = vis.depth := by
  rw [visitNode_spec]

/-- C10: a `Root::visit` over an empty child list, or one whose children
have all expired, writes exactly the header line, the footer line, and two
blank lines, with no body lines in between. -/
theorem empty_report (cs : List (Option NTree)) (h : ∀ c ∈ cs, c = none) :
    rootVisit cs = " -!- R E P O R T -!-\n -@- _ _ _ _ _ _ -@-\n\n\n" := by
  rw [rootVisit_eq, reportOf, bodyKids_all_dead cs 1 h]
  rfl

/-- C10 (witness): a Root whose only child reference has expired writes the
bare framing. -/
theorem empty_report_instance :
    rootVisit [none] = " -!- R E P O R T -!-\n -@- _ _ _ _ _ _ -@-\n\n\n" :=
  empty_report [none] (by simp)

end Mertics
